import Mathlib

/-!
Shallow embedding of the analytical core of a public-transport analytics
pipeline: a time codec for GTFS "HH:MM:SS" strings (hours may exceed 24),
a synthetic delay-event generator, and a headway-statistics engine.

Sources embedded:
* `src/generate_synthetic_delays.py` — `time_to_seconds`, `generate_delays`
  (category / magnitude / reason draws, `add_delay_to_time`, output sort);
* `src/gtfs_processing.py` — `compute_headway_stats` (row cap, time parsing,
  sort, group-wise diff, per-route aggregation).

Randomness is modelled by an abstract draw stream `f : ℕ → ℚ`, one stream
element per scalar value produced by the generator; the bit-level numpy
algorithms (PCG64, Lemire rejection, ziggurat) are abstracted into fixed
functions of the consumed stream element, which preserves exactly the
consumption order and the range guarantees of each primitive.
-/

/-! ### Time codec: `time_to_seconds` and the `HH:MM:SS` formatter -/

/-- Python `str.split(":")` on a character list: splits at every colon,
keeping empty fields (`"".split(":") == [""]`). -/
def splitCh (sep : Char) : List Char → List (List Char)
  | [] => [[]]
  | c :: rest =>
    let r := splitCh sep rest
    if c = sep then [] :: r
    else
      match r with
      | [] => [[c]]
      | hd :: tl => (c :: hd) :: tl

/-- Value of a digit-character list read as a base-10 numeral
(accumulating fold, leading zeros allowed). -/
def digitsVal (cs : List Char) : ℕ :=
  cs.foldl (fun a c => 10 * a + (c.toNat - 48)) 0

/-- Digit-string parsing: all characters must be decimal digits and the
string must be nonempty, as for Python `int` on an unsigned numeral. -/
def digitsToNat? (cs : List Char) : Option ℕ :=
  if !cs.isEmpty && cs.all Char.isDigit then some (digitsVal cs) else none

/-- Model of Python `int(...)` on one colon-separated field: an optional
sign followed by a nonempty run of decimal digits; anything else fails. -/
def pyInt? (cs : List Char) : Option ℤ :=
  match cs with
  | '-' :: rest => (digitsToNat? rest).map (fun n => -(n : ℤ))
  | '+' :: rest => (digitsToNat? rest).map (fun n => (n : ℤ))
  | _ => (digitsToNat? cs).map (fun n => (n : ℤ))

/-- `time_to_seconds` (`generate_synthetic_delays.py` lines 19–24 and the
identical local helper in `gtfs_processing.py` lines 132–134):
`h, m, s = map(int, str(t).split(":")); return h*3600 + m*60 + s`.
`none` models the `ValueError` (the spec's `MalformedTimeError`) raised
when the field count is not three or a field fails integer parsing. -/
def time_to_seconds (t : String) : Option ℤ :=
  match (splitCh ':' t.data).map pyInt? with
  | [some h, some m, some s] => some (h * 3600 + m * 60 + s)
  | _ => none

/-- Little-endian decimal digit characters of `n`, with `fuel` bounding the
recursion depth (structural, so that kernel evaluation works). -/
def decDigitsAux : ℕ → ℕ → List Char
  | 0, _ => []
  | _ + 1, 0 => []
  | fuel + 1, n => Nat.digitChar (n % 10) :: decDigitsAux fuel (n / 10)

/-- Decimal representation of a natural number, as produced by Python
`"%d" % n` for `n ≥ 0`. -/
def decDigits (n : ℕ) : List Char :=
  if n = 0 then ['0'] else (decDigitsAux n n).reverse

/-- Python `f"{n:02d}"` for `n ≥ 0`: pad to width two with `'0'`, never
truncating (hours above 99 keep all their digits). -/
def pad2 (n : ℕ) : List Char :=
  if n < 10 then '0' :: decDigits n else decDigits n

/-- The formatting step of `add_delay_to_time`
(`generate_synthetic_delays.py` lines 127–130):
`h = sec // 3600; m = (sec % 3600) // 60; s = sec % 60` rendered as
`f"{h:02d}:{m:02d}:{s:02d}"`. The hours component is not reduced
modulo 24. -/
def formatHMS (sec : ℕ) : String :=
  String.mk (pad2 (sec / 3600) ++ ':' :: (pad2 ((sec % 3600) / 60) ++ ':' :: pad2 (sec % 60)))

/-! ### Round-trip lemmas for the codec -/

theorem splitCh_of_no_sep (a : List Char) (h : ∀ c ∈ a, c ≠ ':') :
    splitCh ':' a = [a] := by
  induction a with
  | nil => rfl
  | cons c rest ih =>
    have hc : c ≠ ':' := h c (by simp)
    have hrest : splitCh ':' rest = [rest] := ih (fun x hx => h x (by simp [hx]))
    simp [splitCh, hc, hrest]

theorem splitCh_append (a rest : List Char) (h : ∀ c ∈ a, c ≠ ':') :
    splitCh ':' (a ++ ':' :: rest) = a :: splitCh ':' rest := by
  induction a with
  | nil => simp [splitCh]
  | cons c a ih =>
    have hc : c ≠ ':' := h c (by simp)
    have ha : splitCh ':' (a ++ ':' :: rest) = a :: splitCh ':' rest :=
      ih (fun x hx => h x (by simp [hx]))
    simp [splitCh, hc, ha]

theorem digitChar_isDigit {d : ℕ} (h : d < 10) : (Nat.digitChar d).isDigit = true := by
  interval_cases d <;> decide

theorem digitChar_toNat {d : ℕ} (h : d < 10) : (Nat.digitChar d).toNat = 48 + d := by
  interval_cases d <;> decide

theorem isDigit_ne_colon {c : Char} (h : c.isDigit = true) : c ≠ ':' := by
  intro hc; subst hc; simp at h

theorem isDigit_ne_minus {c : Char} (h : c.isDigit = true) : c ≠ '-' := by
  intro hc; subst hc; simp at h

theorem isDigit_ne_plus {c : Char} (h : c.isDigit = true) : c ≠ '+' := by
  intro hc; subst hc; simp at h

theorem decDigitsAux_all_digit (fuel n : ℕ) :
    ∀ c ∈ decDigitsAux fuel n, c.isDigit = true := by
  induction fuel generalizing n with
  | zero => intro c hc; simp [decDigitsAux] at hc
  | succ fuel ih =>
    intro c hc
    match n with
    | 0 => simp [decDigitsAux] at hc
    | m + 1 =>
      simp only [decDigitsAux, List.mem_cons] at hc
      rcases hc with hc | hc
      · subst hc; exact digitChar_isDigit (Nat.mod_lt _ (by norm_num))
      · exact ih _ c hc

theorem decDigits_all_digit (n : ℕ) : ∀ c ∈ decDigits n, c.isDigit = true := by
  unfold decDigits
  split
  · intro c hc; simp at hc; subst hc; decide
  · intro c hc
    rw [List.mem_reverse] at hc
    exact decDigitsAux_all_digit n n c hc

theorem pad2_all_digit (n : ℕ) : ∀ c ∈ pad2 n, c.isDigit = true := by
  unfold pad2
  split
  · intro c hc
    rcases List.mem_cons.mp hc with hc | hc
    · subst hc; decide
    · exact decDigits_all_digit n c hc
  · exact decDigits_all_digit n

theorem decDigits_ne_nil (n : ℕ) : decDigits n ≠ [] := by
  unfold decDigits
  split
  · simp
  · rename_i h
    match hn : n, h with
    | m + 1, _ =>
      simp [decDigitsAux]

theorem pad2_ne_nil (n : ℕ) : pad2 n ≠ [] := by
  unfold pad2
  split
  · simp
  · exact decDigits_ne_nil n

theorem digitsVal_append (a b : List Char) :
    digitsVal (a ++ b) = b.foldl (fun x c => 10 * x + (c.toNat - 48)) (digitsVal a) := by
  simp [digitsVal, List.foldl_append]

theorem digitsVal_decDigitsAux (fuel n : ℕ) (h : n ≤ fuel) :
    digitsVal (decDigitsAux fuel n).reverse = n := by
  induction fuel generalizing n with
  | zero =>
    have : n = 0 := Nat.le_zero.mp h
    subst this; rfl
  | succ fuel ih =>
    match n with
    | 0 => rfl
    | m + 1 =>
      have hlt : (m + 1) / 10 ≤ fuel := by omega
      have hrec := ih ((m + 1) / 10) hlt
      simp only [decDigitsAux, List.reverse_cons]
      rw [digitsVal_append, hrec]
      simp only [List.foldl_cons, List.foldl_nil]
      rw [digitChar_toNat (Nat.mod_lt _ (by norm_num : (0:ℕ) < 10))]
      omega

theorem digitsVal_decDigits (n : ℕ) : digitsVal (decDigits n) = n := by
  unfold decDigits
  split
  · rename_i h; subst h; rfl
  · exact digitsVal_decDigitsAux n n le_rfl

theorem digitsVal_pad2 (n : ℕ) : digitsVal (pad2 n) = n := by
  unfold pad2
  split
  · show digitsVal ('0' :: decDigits n) = n
    have : digitsVal ('0' :: decDigits n) =
        (decDigits n).foldl (fun x c => 10 * x + (c.toNat - 48)) 0 := by
      simp [digitsVal]
    rw [this]
    exact digitsVal_decDigits n
  · exact digitsVal_decDigits n

theorem digitsToNat?_pad2 (n : ℕ) : digitsToNat? (pad2 n) = some n := by
  unfold digitsToNat?
  rw [if_pos, digitsVal_pad2]
  refine (Bool.and_eq_true _ _).mpr ⟨?_, ?_⟩
  · cases hp : pad2 n with
    | nil => exact absurd hp (pad2_ne_nil n)
    | cons c cs => simp [List.isEmpty]
  · exact List.all_eq_true.mpr (fun c hc => pad2_all_digit n c hc)

theorem pyInt?_pad2 (n : ℕ) : pyInt? (pad2 n) = some (n : ℤ) := by
  cases hp : pad2 n with
  | nil => exact absurd hp (pad2_ne_nil n)
  | cons c cs =>
    have hdig : c.isDigit = true := pad2_all_digit n c (by simp [hp])
    have hm : c ≠ '-' := isDigit_ne_minus hdig
    have hpl : c ≠ '+' := isDigit_ne_plus hdig
    have : pyInt? (c :: cs) = (digitsToNat? (c :: cs)).map (fun n => (n : ℤ)) := by
      unfold pyInt?
      split
      · rename_i heq; rw [List.cons.injEq] at heq; exact absurd heq.1 hm
      · rename_i heq; rw [List.cons.injEq] at heq; exact absurd heq.1 hpl
      · rfl
    rw [← hp] at this ⊢
    rw [this, digitsToNat?_pad2]
    rfl

theorem pad2_ne_colon (n : ℕ) : ∀ c ∈ pad2 n, c ≠ ':' :=
  fun c hc => isDigit_ne_colon (pad2_all_digit n c hc)

/-- Claim C1: Time-codec round trip. Formatting any non-negative number of
seconds with the `HH:MM:SS` formatting step of `add_delay_to_time` and
parsing it back with `time_to_seconds` recovers the input exactly; hours
are not reduced modulo 24, e.g. `90600` seconds formats as `"25:10:00"`. -/
theorem time_codec_roundtrip (s : ℕ) :
    time_to_seconds (formatHMS s) = some (s : ℤ) ∧ formatHMS 90600 = "25:10:00" := by
  constructor
  · unfold time_to_seconds formatHMS
    have hsplit :
        splitCh ':' (pad2 (s / 3600) ++ ':' :: (pad2 (s % 3600 / 60) ++ ':' :: pad2 (s % 60)))
          = [pad2 (s / 3600), pad2 (s % 3600 / 60), pad2 (s % 60)] := by
      rw [splitCh_append _ _ (pad2_ne_colon _),
          splitCh_append _ _ (pad2_ne_colon _),
          splitCh_of_no_sep _ (pad2_ne_colon _)]
    show (match (splitCh ':' (String.mk _).data).map pyInt? with
      | [some h, some m, some s] => some (h * 3600 + m * 60 + s)
      | _ => none) = some (s : ℤ)
    rw [show (String.mk (pad2 (s / 3600) ++ ':' :: (pad2 (s % 3600 / 60) ++ ':' :: pad2 (s % 60)))).data
          = pad2 (s / 3600) ++ ':' :: (pad2 (s % 3600 / 60) ++ ':' :: pad2 (s % 60)) from rfl]
    rw [hsplit]
    simp only [List.map_cons, List.map_nil, pyInt?_pad2]
    have harith : ((s / 3600 : ℕ) : ℤ) * 3600 + ((s % 3600 / 60 : ℕ) : ℤ) * 60 + ((s % 60 : ℕ) : ℤ)
        = (s : ℤ) := by
      push_cast
      omega
    rw [harith]
  · rfl

/-! ### Delay synthesizer (`generate_synthetic_delays.py`) -/

/-- A joined `stop_times`/`trips` row, the input record of both the delay
synthesizer and the headway engine (columns of the SQL SELECTs). -/
structure Ev where
  trip_id : String
  stop_id : String
  arrival_time : String
  route_id : String
deriving DecidableEq

/-- The four delay categories of the mixture sampler
(`rng.choice(["on_time", "small_delay", "big_delay", "early"], p=[0.6, 0.25, 0.1, 0.05])`). -/
inductive DelayCategory where
  | on_time
  | small_delay
  | big_delay
  | early
deriving DecidableEq

/-- A synthesized delay event (the output row of `generate_delays`, columns
kept at lines 137–148 of the source). -/
structure DelayEvent where
  service_date : String
  trip_id : String
  stop_id : String
  route_id : String
  planned_arrival : String
  actual_arrival : String
  delay_min : ℤ
  reason : String
deriving DecidableEq

/-- Errors of the synthesizer: the `RuntimeError` on an empty sample
(the spec's `EmptyInputError`) and the `ValueError` from time parsing
(the spec's `MalformedTimeError`). -/
inductive GenError where
  | emptyInput
  | malformedTime
deriving DecidableEq

/-- One categorical draw with weights `[0.6, 0.25, 0.1, 0.05]`: the consumed
stream element is reduced to one of twenty equiprobable cells, of which 12
map to `on_time`, 5 to `small_delay`, 2 to `big_delay` and 1 to `early`
(abstraction of `rng.choice` that preserves the weights and consumes
exactly one draw). -/
def catOf (q : ℚ) : DelayCategory :=
  let v := (Int.floor q).natAbs % 20
  if v < 12 then .on_time
  else if v < 17 then .small_delay
  else if v < 19 then .big_delay
  else .early

/-- `np.round` to zero decimals: round half to even (banker's rounding). -/
def roundHalfEven (q : ℚ) : ℤ :=
  let f := Int.floor q
  let r := q - f
  if r < 1 / 2 then f
  else if 1 / 2 < r then f + 1
  else if f % 2 = 0 then f else f + 1

/-- `np.clip(x, lo, hi) = min(max(x, lo), hi)`. -/
def npClip (x lo hi : ℚ) : ℚ := min (max x lo) hi

/-- Magnitude of an `on_time` event: a normal sample (the consumed stream
element, standing for the `rng.normal(0, 1)` value) clipped to `[-2, 3]`
and then rounded by `delays.round(0).astype(int)`. -/
def onTimeMag (q : ℚ) : ℤ := roundHalfEven (npClip q (-2) 3)

/-- `rng.integers(lo, hi)` (half-open): one stream element reduced to a
uniform integer in `[lo, hi)`; the reduction is by remainder, which keeps
numpy's guarantee that the result always lies in the half-open range. -/
def intDraw (lo hi : ℕ) (q : ℚ) : ℤ :=
  (lo : ℤ) + (((Int.floor q).natAbs % (hi - lo) : ℕ) : ℤ)

/-- Magnitude of a `small_delay` event: `rng.integers(1, 6)`. -/
def smallMag (q : ℚ) : ℤ := intDraw 1 6 q

/-- Magnitude of a `big_delay` event: `rng.integers(5, 21)`. -/
def bigMag (q : ℚ) : ℤ := intDraw 5 21 q

/-- Magnitude of an `early` event: `-rng.integers(1, 6)`. -/
def earlyMag (q : ℚ) : ℤ := -intDraw 1 6 q

/-- The category draws: lines 80–84 draw one category per event, for all
events in input order, consuming stream elements `k, k+1, …, k+n-1`. -/
def categoriesOf (f : ℕ → ℚ) : ℕ → ℕ → List DelayCategory
  | _, 0 => []
  | k, n + 1 => catOf (f k) :: categoriesOf f (k + 1) n

/-- `mask.sum()` for a category mask: how many events drew category `c`. -/
def countCat (c : DelayCategory) (cats : List DelayCategory) : ℕ :=
  cats.countP (fun x => x == c)

/-- The masked batch assignments of lines 86–104: each category's batch of
draws occupies a contiguous block of the stream, and `delays[mask] = batch`
gives the j-th event of that category (in input order) the j-th element of
the block. `kOn`, `kSm`, `kBig`, `kEar` are the next unused stream index
of each category's block. -/
def goDelays (f : ℕ → ℚ) : List DelayCategory → ℕ → ℕ → ℕ → ℕ → List ℤ
  | [], _, _, _, _ => []
  | .on_time :: rest, kOn, kSm, kBig, kEar =>
      onTimeMag (f kOn) :: goDelays f rest (kOn + 1) kSm kBig kEar
  | .small_delay :: rest, kOn, kSm, kBig, kEar =>
      smallMag (f kSm) :: goDelays f rest kOn (kSm + 1) kBig kEar
  | .big_delay :: rest, kOn, kSm, kBig, kEar =>
      bigMag (f kBig) :: goDelays f rest kOn kSm (kBig + 1) kEar
  | .early :: rest, kOn, kSm, kBig, kEar =>
      earlyMag (f kEar) :: goDelays f rest kOn kSm kBig (kEar + 1)

/-- The `delay_min` column (lines 86–106): after the `n` category draws the
stream holds the `on_time` batch, then the `small_delay`, `big_delay` and
`early` batches, in that source order. -/
def delaysOf (f : ℕ → ℚ) (cats : List DelayCategory) : List ℤ :=
  let n := cats.length
  let bOn := n
  let bSm := bOn + countCat .on_time cats
  let bBig := bSm + countCat .small_delay cats
  let bEar := bBig + countCat .big_delay cats
  goDelays f cats bOn bSm bBig bEar

/-- The per-category reason vocabulary (lines 109–114). -/
def reason_choices : DelayCategory → List String
  | .on_time => ["on_time"]
  | .small_delay => ["vehicle_late", "connection_wait"]
  | .big_delay => ["signal_failure", "infrastructure_issue", "congestion"]
  | .early => ["early_departure"]

/-- `rng.choice(vocab)`: one stream element reduced to a uniform index. -/
def choiceStr (l : List String) (q : ℚ) : String :=
  l.getD ((Int.floor q).natAbs % l.length) ""

/-- The reason loop (lines 116–119): one `rng.choice` per event, in input
order, consuming stream elements from `k` on. -/
def reasonsOf (f : ℕ → ℚ) : ℕ → List DelayCategory → List String
  | _, [] => []
  | k, c :: rest => choiceStr (reason_choices c) (f k) :: reasonsOf f (k + 1) rest

/-- `add_delay_to_time` (lines 122–130): shift the planned arrival by the
delay, clamp negative results to zero, format back to `HH:MM:SS`. -/
def add_delay_to_time (t_str : String) (delay_minutes : ℤ) : Option String :=
  (time_to_seconds t_str).map fun sec =>
    let sec_actual := sec + delay_minutes * 60
    let sec_clamped := if sec_actual < 0 then 0 else sec_actual
    formatHMS sec_clamped.toNat

/-- Assembling one output row: the constant service date of line 70, the
identifying columns, the planned and derived actual arrival, the unclamped
signed delay and the reason. `none` models the `ValueError` raised while
computing `actual_arrival` on a malformed planned time. -/
def mkDelayEvent (e : Ev) (d : ℤ) (r : String) : Option DelayEvent :=
  (add_delay_to_time e.arrival_time d).map fun aa =>
    ⟨"2025-11-01", e.trip_id, e.stop_id, e.route_id, e.arrival_time, aa, d, r⟩

/-- Sequencing of fallible per-row computations (a pandas `apply` or list
comprehension raises on the first bad row, leaving no partial result). -/
def mapOpt (f : α → Option β) : List α → Option (List β)
  | [] => some []
  | a :: l =>
    match f a with
    | none => none
    | some b => (mapOpt f l).map (fun bs => b :: bs)

/-- Sort key of the output canonicalization
`df_out.sort_values(["service_date", "route_id", "trip_id", "stop_id"])`. -/
def evKey (e : DelayEvent) : Lex (String × Lex (String × Lex (String × String))) :=
  toLex (e.service_date, toLex (e.route_id, toLex (e.trip_id, e.stop_id)))

/-- The output ordering relation (lexicographic, ascending). -/
def evRel (a b : DelayEvent) : Prop := evKey a ≤ evKey b

instance : DecidableRel evRel := fun a b => inferInstanceAs (Decidable (evKey a ≤ evKey b))

instance : IsTotal DelayEvent evRel := ⟨fun a b => le_total (evKey a) (evKey b)⟩

instance : IsTrans DelayEvent evRel := ⟨fun _ _ _ h h' => le_trans h h'⟩

/-- The synthesizer core as a function of the draw stream: the empty-input
check of lines 66–67, the category draws, the masked magnitude batches,
the reason loop, the actual-arrival derivation, and the final stable sort
by `(service_date, route_id, trip_id, stop_id)` (lines 137–150). -/
def generate_core (f : ℕ → ℚ) (es : List Ev) : Except GenError (List DelayEvent) :=
  if es.isEmpty then .error .emptyInput
  else
    let n := es.length
    let cats := categoriesOf f 0 n
    let ds := delaysOf f cats
    let rs := reasonsOf f (2 * n) cats
    match mapOpt (fun p => mkDelayEvent p.1.1 p.1.2 p.2) (List.zip (List.zip es ds) rs) with
    | none => .error .malformedTime
    | some evs => .ok (List.insertionSort evRel evs)

/-- `np.random.default_rng(seed)` abstracted: a deterministic stream of
rationals computed from the seed alone (stand-in for PCG64). -/
def default_rng (seed : ℕ) : ℕ → ℚ :=
  fun i => (((seed * 2654435761 + i * 40503 + 17) % 1000003 : ℕ) : ℚ) / 1000003

/-- `generate_delays(...)` for a given sampled input list and seed: the
whole synthesis stage after the SQL sampling step. -/
def generate_delays (seed : ℕ) (es : List Ev) : Except GenError (List DelayEvent) :=
  generate_core (default_rng seed) es

/-! ### Magnitude bounds (claim C2) -/

theorem roundHalfEven_int_le {q : ℚ} {n : ℤ} (h : q ≤ (n : ℚ)) : roundHalfEven q ≤ n := by
  have hf : Int.floor q ≤ n := by
    have := Int.floor_le_floor h
    rwa [Int.floor_intCast] at this
  have hfq : (Int.floor q : ℚ) ≤ q := Int.floor_le q
  simp only [roundHalfEven]
  split_ifs with h1 h2 h3
  · exact hf
  · -- the fractional part exceeds 1/2, so the floor is strictly below n
    have hlt : (Int.floor q : ℚ) + 1 / 2 < q := by linarith
    have : (Int.floor q : ℚ) < (n : ℚ) := by linarith
    have : Int.floor q < n := by exact_mod_cast this
    omega
  · exact hf
  · have heq : q - (Int.floor q : ℚ) = 1 / 2 := le_antisymm (not_lt.mp h2) (not_lt.mp h1)
    have : (Int.floor q : ℚ) + 1 / 2 ≤ (n : ℚ) := by linarith
    have hlt : (Int.floor q : ℚ) < (n : ℚ) := by linarith
    have : Int.floor q < n := by exact_mod_cast hlt
    omega

theorem roundHalfEven_int_ge {q : ℚ} {n : ℤ} (h : (n : ℚ) ≤ q) : n ≤ roundHalfEven q := by
  have hf : n ≤ Int.floor q := Int.le_floor.mpr h
  simp only [roundHalfEven]
  split_ifs <;> omega

theorem onTimeMag_bounds (q : ℚ) : -2 ≤ onTimeMag q ∧ onTimeMag q ≤ 3 := by
  unfold onTimeMag npClip
  constructor
  · refine roundHalfEven_int_ge ?_
    push_cast
    exact le_min (le_max_right _ _) (by norm_num)
  · refine roundHalfEven_int_le ?_
    push_cast
    exact min_le_right _ _

theorem smallMag_bounds (q : ℚ) : 1 ≤ smallMag q ∧ smallMag q ≤ 5 := by
  unfold smallMag intDraw
  have h : (Int.floor q).natAbs % (6 - 1) < 5 := Nat.mod_lt _ (by norm_num)
  constructor <;> omega

theorem bigMag_bounds (q : ℚ) : 5 ≤ bigMag q ∧ bigMag q ≤ 20 := by
  unfold bigMag intDraw
  have h : (Int.floor q).natAbs % (21 - 5) < 16 := Nat.mod_lt _ (by norm_num)
  constructor <;> omega

theorem earlyMag_bounds (q : ℚ) : -5 ≤ earlyMag q ∧ earlyMag q ≤ -1 := by
  unfold earlyMag intDraw
  have h : (Int.floor q).natAbs % (6 - 1) < 5 := Nat.mod_lt _ (by norm_num)
  constructor <;> omega

/-- The band the spec assigns to each delay category. -/
def delayBand : DelayCategory → ℤ → Prop
  | .on_time, d => -2 ≤ d ∧ d ≤ 3
  | .small_delay, d => 1 ≤ d ∧ d ≤ 5
  | .big_delay, d => 5 ≤ d ∧ d ≤ 20
  | .early, d => -5 ≤ d ∧ d ≤ -1

theorem goDelays_band (f : ℕ → ℚ) (cats : List DelayCategory) :
    ∀ kOn kSm kBig kEar, List.Forall₂ delayBand cats (goDelays f cats kOn kSm kBig kEar) := by
  induction cats with
  | nil => intro _ _ _ _; exact List.Forall₂.nil
  | cons c rest ih =>
    intro kOn kSm kBig kEar
    cases c with
    | on_time => exact List.Forall₂.cons (onTimeMag_bounds _) (ih _ _ _ _)
    | small_delay => exact List.Forall₂.cons (smallMag_bounds _) (ih _ _ _ _)
    | big_delay => exact List.Forall₂.cons (bigMag_bounds _) (ih _ _ _ _)
    | early => exact List.Forall₂.cons (earlyMag_bounds _) (ih _ _ _ _)

/-- Claim C2: delay-magnitude bounds. For every draw stream and every list
of drawn categories, the `delay_min` value synthesized for each event lies
in the band of that event's category: `[-2, 3]` for `on_time`, `[1, 5]`
for `small_delay`, `[5, 20]` for `big_delay`, `[-5, -1]` for `early`. -/
theorem delay_magnitude_bounds (f : ℕ → ℚ) (cats : List DelayCategory) :
    List.Forall₂ delayBand cats (delaysOf f cats) := by
  unfold delaysOf
  exact goDelays_band f cats _ _ _ _

/-! ### Actual-arrival derivation (claim C3) -/

/-- Claim C3: for every parsable planned arrival, `add_delay_to_time`
renders `max(0, toSeconds(planned) + delay*60)`; in particular
`"00:02:00"` shifted by `-10` minutes yields `"00:00:00"`; and the
`delay_min` field stored in the output event is the unclamped signed
delay. -/
theorem actual_arrival_derivation :
    (∀ (t : String) (s d : ℤ), time_to_seconds t = some s →
        add_delay_to_time t d = some (formatHMS (max 0 (s + d * 60)).toNat)) ∧
    add_delay_to_time "00:02:00" (-10) = some "00:00:00" ∧
    (∀ (e : Ev) (d : ℤ) (r : String) (de : DelayEvent),
        mkDelayEvent e d r = some de → de.delay_min = d) := by
  refine ⟨?_, ?_, ?_⟩
  · intro t s d hparse
    unfold add_delay_to_time
    rw [hparse]
    have hmax : (if s + d * 60 < 0 then 0 else s + d * 60) = max 0 (s + d * 60) := by
      split_ifs with h <;> omega
    simp only [Option.map, hmax]
  · rfl
  · intro e d r de h
    unfold mkDelayEvent at h
    cases ha : add_delay_to_time e.arrival_time d with
    | none => rw [ha] at h; simp at h
    | some aa =>
      rw [ha] at h
      simp only [Option.map, Option.some.injEq] at h
      rw [← h]

/-- Witness for C3 at a concrete input: planned arrival `"00:05:00"`
(300 seconds) shifted by 2 minutes. -/
theorem actual_arrival_derivation_witness :
    add_delay_to_time "00:05:00" 2 = some (formatHMS (max 0 ((300 : ℤ) + 2 * 60)).toNat) :=
  actual_arrival_derivation.1 "00:05:00" 300 2 rfl

/-! ### Headway engine (`gtfs_processing.py`, `compute_headway_stats`) -/

/-- A joined row with its `arrival_sec` column added (line 136). -/
structure PRow where
  stop_id : String
  trip_id : String
  arrival_time : String
  route_id : String
  arrival_sec : ℤ
deriving DecidableEq

/-- `df["arrival_sec"] = df["arrival_time"].apply(time_to_seconds)`:
fails on malformed times, aborting the whole batch. -/
def parseRow (e : Ev) : Option PRow :=
  (time_to_seconds e.arrival_time).map fun s =>
    ⟨e.stop_id, e.trip_id, e.arrival_time, e.route_id, s⟩

/-- The grouping key of `df.groupby(["route_id", "stop_id"])`. -/
def groupKey (p : PRow) : String × String := (p.route_id, p.stop_id)

/-- Sort key of `df.sort_values(["route_id", "stop_id", "arrival_sec"])`. -/
def hwKey (p : PRow) : Lex (String × Lex (String × ℤ)) :=
  toLex (p.route_id, toLex (p.stop_id, p.arrival_sec))

/-- The row ordering relation. -/
def hwRel (a b : PRow) : Prop := hwKey a ≤ hwKey b

instance : DecidableRel hwRel := fun a b => inferInstanceAs (Decidable (hwKey a ≤ hwKey b))

instance : IsTotal PRow hwRel := ⟨fun a b => le_total (hwKey a) (hwKey b)⟩

instance : IsTrans PRow hwRel := ⟨fun _ _ _ h h' => le_trans h h'⟩

/-- The stable sort of line 139. -/
def sortRows (ps : List PRow) : List PRow := List.insertionSort hwRel ps

/-- One headway observation: the row of the intermediate frame surviving
`dropna` — a row together with its in-group predecessor's gap in minutes. -/
structure Obs where
  route_id : String
  stop_id : String
  headway_min : ℚ
deriving DecidableEq

/-- `df.groupby(["route_id", "stop_id"])["arrival_sec"].diff() / 60.0`
followed by `dropna`: each row is paired with the nearest earlier row of
the same `(route_id, stop_id)` group, and rows with no such predecessor
are dropped. `prev` holds the already-visited rows, most recent first. -/
def diffObs (prev : List PRow) : List PRow → List Obs
  | [] => []
  | p :: rest =>
    match prev.find? (fun q => groupKey q == groupKey p) with
    | some q =>
        ⟨p.route_id, p.stop_id, ((p.arrival_sec - q.arrival_sec : ℤ) : ℚ) / 60⟩ ::
          diffObs (p :: prev) rest
    | none => diffObs (p :: prev) rest

/-- The observation set computed by lines 139–144: sort, group-diff, dropna. -/
def obsOf (ps : List PRow) : List Obs := diffObs [] (sortRows ps)

/-- One output row of the per-route aggregation (lines 146–159). -/
structure RouteStat where
  route_id : String
  n_headways : ℕ
  avg_headway_min : ℚ
  median_headway_min : ℚ
  min_headway_min : ℚ
  max_headway_min : ℚ
deriving DecidableEq

/-- Arithmetic mean (`.agg(["mean"])`); 0 on the empty list (unreachable:
every aggregated group is nonempty). -/
def meanQ (l : List ℚ) : ℚ := (l.foldl (fun a x => a + x) 0) / l.length

/-- Sample median as pandas computes it: middle element of the sorted
values, or the average of the two middle elements. -/
def medianQ (l : List ℚ) : ℚ :=
  let s := List.insertionSort (fun a b : ℚ => a ≤ b) l
  if s.length = 0 then 0
  else if s.length % 2 = 1 then s.getD (s.length / 2) 0
  else (s.getD (s.length / 2 - 1) 0 + s.getD (s.length / 2) 0) / 2

/-- Group minimum (`.agg(["min"])`). -/
def minQ (l : List ℚ) : ℚ :=
  match l with
  | [] => 0
  | x :: xs => xs.foldl min x

/-- Group maximum (`.agg(["max"])`). -/
def maxQ (l : List ℚ) : ℚ :=
  match l with
  | [] => 0
  | x :: xs => xs.foldl max x

/-- `df.groupby("route_id")["headway_min"].agg(["count", "mean", "median",
"min", "max"])`: one row per distinct route among the observations, keys
sorted ascending (pandas `groupby` sorts group keys). -/
def headway_stats (obs : List Obs) : List RouteStat :=
  let routes := List.insertionSort (fun a b : String => a ≤ b)
    ((obs.map (fun o => o.route_id)).dedup)
  routes.map fun r =>
    let gs := (obs.filter (fun o => o.route_id == r)).map (fun o => o.headway_min)
    ⟨r, gs.length, meanQ gs, medianQ gs, minQ gs, maxQ gs⟩

/-- `compute_headway_stats(db_path, max_rows=100000)` (lines 110–161): read
at most `max_rows` joined rows (the SQL `LIMIT ?`), convert arrival times
(failing the whole batch on a malformed one), sort, diff within
`(route_id, stop_id)` groups, drop first-of-group rows, aggregate per
route. -/
def compute_headway_stats (rows : List Ev) (max_rows : ℕ := 100000) :
    Option (List RouteStat) :=
  (mapOpt parseRow (rows.take max_rows)).map fun ps => headway_stats (obsOf ps)

/-- The call in `main` (line 237): `compute_headway_stats(DB_PATH, max_rows=200000)`. -/
def main_headway_stats (rows : List Ev) : Option (List RouteStat) :=
  compute_headway_stats rows 200000

/-! ### Observation counting (claims C4, C5) -/

/-- Number of input rows in the `(r, s)` group. -/
def groupCount (r s : String) (ps : List PRow) : ℕ :=
  ps.countP (fun p => groupKey p == (r, s))

/-- Number of emitted observations belonging to the `(r, s)` group. -/
def obsCount (r s : String) (obs : List Obs) : ℕ :=
  obs.countP (fun o => (o.route_id, o.stop_id) == (r, s))

theorem diffObs_count (r s : String) :
    ∀ (rest prev : List PRow),
      ((∃ q ∈ prev, groupKey q = (r, s)) →
        obsCount r s (diffObs prev rest) = groupCount r s rest) ∧
      ((¬ ∃ q ∈ prev, groupKey q = (r, s)) →
        obsCount r s (diffObs prev rest) = groupCount r s rest - 1) := by
  intro rest
  induction rest with
  | nil =>
    intro prev
    constructor <;> intro _ <;> simp [diffObs, obsCount, groupCount]
  | cons p rest ih =>
    intro prev
    by_cases hpk : groupKey p = (r, s)
    · have hpkb : (groupKey p == (r, s)) = true := by rw [beq_iff_eq]; exact hpk
      have hgc : groupCount r s (p :: rest) = groupCount r s rest + 1 :=
        List.countP_cons_of_pos _ _ hpkb
      have hexp : ∃ q ∈ p :: prev, groupKey q = (r, s) := ⟨p, by simp, hpk⟩
      cases hfind : prev.find? (fun q => groupKey q == groupKey p) with
      | some q0 =>
        have hex : ∃ q ∈ prev, groupKey q = (r, s) := by
          have hmem := List.mem_of_find?_eq_some hfind
          have hq0 := List.find?_some hfind
          rw [beq_iff_eq] at hq0
          exact ⟨q0, hmem, hq0.trans hpk⟩
        have hobs : obsCount r s (diffObs prev (p :: rest))
            = obsCount r s (diffObs (p :: prev) rest) + 1 := by
          simp only [diffObs, hfind]
          exact List.countP_cons_of_pos _ _ hpkb
        constructor
        · intro _
          rw [hobs, (ih (p :: prev)).1 hexp, hgc]
        · intro hne
          exact absurd hex hne
      | none =>
        have hnone : ¬ ∃ q ∈ prev, groupKey q = (r, s) := by
          intro ⟨q, hq, hqk⟩
          have hfq := List.find?_eq_none.mp hfind q hq
          rw [beq_iff_eq] at hfq
          exact hfq (hqk.trans hpk.symm)
        have hobs : obsCount r s (diffObs prev (p :: rest))
            = obsCount r s (diffObs (p :: prev) rest) := by
          simp only [diffObs, hfind]
        constructor
        · intro hex
          exact absurd hex hnone
        · intro _
          rw [hobs, (ih (p :: prev)).1 hexp, hgc]
          omega
    · have hpkb : (groupKey p == (r, s)) = false := by
        rw [beq_eq_false_iff_ne]; exact hpk
      have hgc : groupCount r s (p :: rest) = groupCount r s rest :=
        List.countP_cons_of_neg _ _ (by simp [hpkb])
      have hshift : (∃ q ∈ p :: prev, groupKey q = (r, s)) ↔
          (∃ q ∈ prev, groupKey q = (r, s)) := by
        constructor
        · intro ⟨q, hq, hqk⟩
          rcases List.mem_cons.mp hq with hq | hq
          · subst hq; exact absurd hqk hpk
          · exact ⟨q, hq, hqk⟩
        · intro ⟨q, hq, hqk⟩; exact ⟨q, by simp [hq], hqk⟩
      have hobs : obsCount r s (diffObs prev (p :: rest))
          = obsCount r s (diffObs (p :: prev) rest) := by
        cases hfind : prev.find? (fun q => groupKey q == groupKey p) with
        | some q0 =>
          simp only [diffObs, hfind]
          exact List.countP_cons_of_neg _ _ (by rw [beq_iff_eq]; intro hc; exact hpk hc)
        | none => simp only [diffObs, hfind]
      constructor
      · intro hex
        rw [hobs, (ih (p :: prev)).1 (hshift.mpr hex), hgc]
      · intro hne
        rw [hobs, (ih (p :: prev)).2 (fun hc => hne (hshift.mp hc)), hgc]

theorem groupCount_sortRows (r s : String) (ps : List PRow) :
    groupCount r s (sortRows ps) = groupCount r s ps :=
  (List.perm_insertionSort hwRel ps).countP_eq _

/-- Claim C4: headway observation count. Every `(route_id, stop_id)` group
of `n` parsed rows contributes exactly `n - 1` observations (truncated
subtraction: a group of size 0 or 1 contributes none — its first event is
dropped, never turned into a zero-length headway). -/
theorem headway_observation_count (ps : List PRow) (r s : String) :
    obsCount r s (obsOf ps) = groupCount r s ps - 1 ∧
    (groupCount r s ps ≤ 1 → obsCount r s (obsOf ps) = 0) := by
  have h : obsCount r s (obsOf ps) = groupCount r s ps - 1 := by
    unfold obsOf
    rw [(diffObs_count r s (sortRows ps) []).2 (by simp), groupCount_sortRows]
  exact ⟨h, fun hle => by omega⟩

/-- Witness for C4 at a concrete input: a single-row group emits no
observation. -/
theorem headway_observation_count_witness :
    obsCount "r1" "s1" (obsOf [⟨"s1", "t1", "08:00:00", "r1", 28800⟩]) = 0 :=
  (headway_observation_count [⟨"s1", "t1", "08:00:00", "r1", 28800⟩] "r1" "s1").2 (by decide)

/-- The per-group observation count, stated over `obsOf` directly. -/
theorem obsCount_obsOf (ps : List PRow) (r s : String) :
    obsCount r s (obsOf ps) = groupCount r s ps - 1 := by
  unfold obsOf
  rw [(diffObs_count r s (sortRows ps) []).2 (by simp), groupCount_sortRows]

/-- Claim C5: absence-not-zero policy. A route id appears among the rows of
the per-route aggregate exactly when some `(route_id, stop_id)` group of
the parsed input has at least two events; routes without such a group are
absent, never zero-filled. -/
theorem route_absence_policy (ps : List PRow) (r : String) :
    r ∈ (headway_stats (obsOf ps)).map (fun st => st.route_id) ↔
      ∃ s, 2 ≤ groupCount r s ps := by
  have h1 : (headway_stats (obsOf ps)).map (fun st => st.route_id)
      = List.insertionSort (fun a b : String => a ≤ b)
          (((obsOf ps).map (fun o => o.route_id)).dedup) := by
    simp only [headway_stats, List.map_map]
    exact List.map_id _
  rw [h1, List.Perm.mem_iff (List.perm_insertionSort _ _), List.mem_dedup, List.mem_map]
  constructor
  · intro ⟨o, ho, hor⟩
    refine ⟨o.stop_id, ?_⟩
    have hpos : 0 < obsCount r o.stop_id (obsOf ps) := by
      apply List.countP_pos_iff.mpr
      exact ⟨o, ho, by rw [beq_iff_eq, hor]⟩
    rw [obsCount_obsOf] at hpos
    omega
  · intro ⟨s, hs⟩
    have hpos : 0 < obsCount r s (obsOf ps) := by
      rw [obsCount_obsOf]
      omega
    obtain ⟨o, ho, hpo⟩ := List.countP_pos_iff.mp hpos
    rw [beq_iff_eq] at hpo
    exact ⟨o, ho, congrArg Prod.fst hpo⟩

/-! ### Fail-fast on malformed times (claim C6) -/

theorem mapOpt_eq_none {f : α → Option β} {l : List α} {x : α}
    (hx : x ∈ l) (hf : f x = none) : mapOpt f l = none := by
  induction l with
  | nil => simp at hx
  | cons a l ih =>
    rcases List.mem_cons.mp hx with hx | hx
    · subst hx
      simp [mapOpt, hf]
    · unfold mapOpt
      cases ha : f a with
      | none => rfl
      | some b => rw [ih hx]; rfl

/-- Claim C6: malformed-time failure. If any row actually read by the
batch (the first `max_rows` joined rows) has an arrival time that
`time_to_seconds` cannot parse, the whole headway computation for the
batch fails (the `ValueError` the spec names `MalformedTimeError`): no
partial output is produced and no row is silently skipped. -/
theorem malformed_time_failfast (rows : List Ev) (m : ℕ) (e : Ev)
    (h1 : e ∈ rows.take m) (h2 : time_to_seconds e.arrival_time = none) :
    compute_headway_stats rows m = none := by
  unfold compute_headway_stats
  rw [mapOpt_eq_none h1 (show parseRow e = none by unfold parseRow; rw [h2]; rfl)]
  rfl

/-- Witness for C6: a batch holding the unparsable time `"bad"` fails. -/
theorem malformed_time_failfast_witness :
    compute_headway_stats [⟨"t1", "s1", "bad", "r1"⟩] 100000 = none :=
  malformed_time_failfast [⟨"t1", "s1", "bad", "r1"⟩] 100000
    ⟨"t1", "s1", "bad", "r1"⟩ (by decide) rfl

/-! ### Empty-input behavior (claim C9) -/

/-- Claim C9: empty input. The delay synthesizer fails on zero input
events (the `RuntimeError` the spec names `EmptyInputError`), for every
seed; the headway engine on zero input rows returns an empty output
without failing, for every row cap. -/
theorem empty_input_behavior (seed m : ℕ) :
    generate_delays seed [] = Except.error GenError.emptyInput ∧
    compute_headway_stats [] m = some [] := by
  constructor
  · rfl
  · unfold compute_headway_stats
    rw [List.take_nil]
    rfl

/-! ### Implicit input cap (claim C10) -/

/-- Claim C10: input cap. `compute_headway_stats` processes only the first
`max_rows` joined rows — the result on any input equals the result on its
`max_rows`-prefix, so rows beyond the cap are silently excluded from every
observation and statistic; the default cap is 100000 and `main` calls with
200000. -/
theorem input_cap_limit (rows : List Ev) (m : ℕ) :
    compute_headway_stats rows m = compute_headway_stats (rows.take m) m ∧
    compute_headway_stats rows = compute_headway_stats rows 100000 ∧
    main_headway_stats rows = compute_headway_stats (rows.take 200000) 200000 := by
  have h : ∀ k, compute_headway_stats rows k = compute_headway_stats (rows.take k) k := by
    intro k
    unfold compute_headway_stats
    rw [List.take_take, min_self]
  exact ⟨h m, rfl, h 200000⟩

/-! ### Two-run determinism (claim C7) -/

/-- Claim C7: two-run determinism. The synthesizer output is a function of
the input sequence and the seed alone — two runs on equal inputs with
equal seeds produce equal outputs, field for field — and every successful
output is ordered ascending by
`(service_date, route_id, trip_id, stop_id)`. -/
theorem two_run_determinism (seed1 seed2 : ℕ) (es1 es2 : List Ev)
    (h1 : seed1 = seed2) (h2 : es1 = es2) :
    generate_delays seed1 es1 = generate_delays seed2 es2 ∧
    ∀ out, generate_delays seed1 es1 = Except.ok out → List.Sorted evRel out := by
  subst h1
  subst h2
  refine ⟨rfl, ?_⟩
  intro out hout
  cases es1 with
  | nil => exact absurd hout (by simp [generate_delays, generate_core])
  | cons a l =>
    simp only [generate_delays, generate_core, List.isEmpty_cons, Bool.false_eq_true,
      if_false] at hout
    split at hout
    · exact absurd hout (by simp)
    · rename_i evs hmm
      have hsort : List.insertionSort evRel evs = out := by
        injection hout
      rw [← hsort]
      exact List.sorted_insertionSort evRel evs

/-- Witness for C7 at a concrete seed and input. -/
theorem two_run_determinism_witness :
    generate_delays 42 [⟨"t1", "s1", "00:00:00", "r1"⟩]
      = generate_delays 42 [⟨"t1", "s1", "00:00:00", "r1"⟩] :=
  (two_run_determinism 42 42 [⟨"t1", "s1", "00:00:00", "r1"⟩]
    [⟨"t1", "s1", "00:00:00", "r1"⟩] rfl rfl).1

/-! ### Draw order (claim C8) -/

/-- Magnitude distribution selected by category (used by the reference
synthesizers). -/
def magFor : DelayCategory → ℚ → ℤ
  | .on_time, q => onTimeMag q
  | .small_delay, q => smallMag q
  | .big_delay, q => bigMag q
  | .early, q => earlyMag q

/-- One masked-batch assignment pass consuming the stream sequentially:
walk the rows; a row of category `t` receives the next stream element
(via `mag`), other rows are left untouched; returns the filled rows and
the next unused stream index. -/
def assignPhase (f : ℕ → ℚ) (t : DelayCategory) (mag : ℚ → ℤ) :
    ℕ → List (DelayCategory × Option ℤ) → List (DelayCategory × Option ℤ) × ℕ
  | k, [] => ([], k)
  | k, (c, v) :: rest =>
    if c = t then
      let r := assignPhase f t mag (k + 1) rest
      ((c, some (mag (f k))) :: r.1, r.2)
    else
      let r := assignPhase f t mag k rest
      ((c, v) :: r.1, r.2)

/-- The magnitude stage of a synthesizer that consumes the stream
phase-by-phase with one running counter: an `on_time` pass, then a
`small_delay` pass, then a `big_delay` pass, then an `early` pass. -/
def magsPhased (f : ℕ → ℚ) (cats : List DelayCategory) (k : ℕ) : List ℤ :=
  let p0 := cats.map (fun c => (c, (none : Option ℤ)))
  let r1 := assignPhase f .on_time onTimeMag k p0
  let r2 := assignPhase f .small_delay smallMag r1.2 r1.1
  let r3 := assignPhase f .big_delay bigMag r2.2 r2.1
  let r4 := assignPhase f .early earlyMag r3.2 r3.1
  r4.1.map (fun p => p.2.getD 0)

/-- Reference synthesizer that consumes the stream in the phased order:
all category draws (one per event, input order), then the four magnitude
passes in category order, then one reason draw per event in input order;
identical post-processing otherwise. -/
def synthPhased (f : ℕ → ℚ) (es : List Ev) : Except GenError (List DelayEvent) :=
  if es.isEmpty then .error .emptyInput
  else
    let n := es.length
    let cats := categoriesOf f 0 n
    let ds := magsPhased f cats n
    let rs := reasonsOf f (2 * n) cats
    match mapOpt (fun p => mkDelayEvent p.1.1 p.1.2 p.2) (List.zip (List.zip es ds) rs) with
    | none => .error .malformedTime
    | some evs => .ok (List.insertionSort evRel evs)

/-- Per-event draw pairs of the claimed interleaved reference: for each
event in input order, a category draw, then a magnitude draw, then a
reason draw, three consecutive stream elements. -/
def drawInterleaved (f : ℕ → ℚ) : ℕ → List Ev → List (ℤ × String)
  | _, [] => []
  | k, _ :: es =>
    let c := catOf (f k)
    (magFor c (f (k + 1)), choiceStr (reason_choices c) (f (k + 2))) ::
      drawInterleaved f (k + 3) es

/-- The reference synthesizer asserted by the claim: same pipeline, but
consuming the random stream event-by-event as category, magnitude,
reason. -/
def synthInterleaved (f : ℕ → ℚ) (es : List Ev) : Except GenError (List DelayEvent) :=
  if es.isEmpty then .error .emptyInput
  else
    match mapOpt (fun p => mkDelayEvent p.1 p.2.1 p.2.2)
        (List.zip es (drawInterleaved f 0 es)) with
    | none => .error .malformedTime
    | some evs => .ok (List.insertionSort evRel evs)

theorem assignPhase_fst (f : ℕ → ℚ) (t : DelayCategory) (mag : ℚ → ℤ) :
    ∀ (pairs : List (DelayCategory × Option ℤ)) (k : ℕ),
      ((assignPhase f t mag k pairs).1).map Prod.fst = pairs.map Prod.fst := by
  intro pairs
  induction pairs with
  | nil => intro k; rfl
  | cons p rest ih =>
    intro k
    obtain ⟨c, v⟩ := p
    by_cases hc : c = t <;> simp [assignPhase, hc, ih]

theorem assignPhase_snd (f : ℕ → ℚ) (t : DelayCategory) (mag : ℚ → ℤ) :
    ∀ (pairs : List (DelayCategory × Option ℤ)) (k : ℕ),
      (assignPhase f t mag k pairs).2 = k + pairs.countP (fun p => p.1 == t) := by
  intro pairs
  induction pairs with
  | nil => intro k; simp [assignPhase]
  | cons p rest ih =>
    intro k
    obtain ⟨c, v⟩ := p
    by_cases hc : c = t
    · have hb : (c == t) = true := by rw [beq_iff_eq]; exact hc
      simp only [assignPhase, if_pos hc, ih, List.countP_cons, hb, reduceIte]
      omega
    · have hb : (c == t) = false := by rw [beq_eq_false_iff_ne]; exact hc
      simp only [assignPhase, if_neg hc, ih, List.countP_cons, hb, reduceIte]
      rw [if_neg (by simp)]
      omega

theorem countP_fst_map (t : DelayCategory) (l : List (DelayCategory × Option ℤ)) :
    l.countP (fun p => p.1 == t) = (l.map Prod.fst).countP (fun c => c == t) := by
  rw [List.countP_map]
  rfl

/-- The chained four-pass overlay with independent phase counters computes
exactly the rank-and-base batch assignment of the source. -/
theorem magsChain_eq_goDelays (f : ℕ → ℚ) :
    ∀ (cats : List DelayCategory) (kOn kSm kBig kEar : ℕ),
      ((assignPhase f .early earlyMag kEar
        ((assignPhase f .big_delay bigMag kBig
          ((assignPhase f .small_delay smallMag kSm
            ((assignPhase f .on_time onTimeMag kOn
              (cats.map (fun c => (c, (none : Option ℤ))))).1)).1)).1)).1).map
          (fun p => p.2.getD 0)
        = goDelays f cats kOn kSm kBig kEar := by
  intro cats
  induction cats with
  | nil => intro _ _ _ _; rfl
  | cons c rest ih =>
    intro kOn kSm kBig kEar
    cases c with
    | on_time =>
      simp only [List.map_cons, assignPhase, reduceIte, goDelays, List.map, Option.getD_some]
      rw [ih (kOn + 1) kSm kBig kEar]
    | small_delay =>
      simp only [List.map_cons, assignPhase, reduceIte, goDelays, List.map, Option.getD_some]
      rw [ih kOn (kSm + 1) kBig kEar]
    | big_delay =>
      simp only [List.map_cons, assignPhase, reduceIte, goDelays, List.map, Option.getD_some]
      rw [ih kOn kSm (kBig + 1) kEar]
    | early =>
      simp only [List.map_cons, assignPhase, reduceIte, goDelays, List.map, Option.getD_some]
      rw [ih kOn kSm kBig (kEar + 1)]

theorem categoriesOf_length (f : ℕ → ℚ) : ∀ (k n : ℕ), (categoriesOf f k n).length = n := by
  intro k n
  induction n generalizing k with
  | zero => rfl
  | succ n ih => simp [categoriesOf, ih]

theorem magsPhased_eq_delaysOf (f : ℕ → ℚ) (cats : List DelayCategory) (k : ℕ)
    (hk : k = cats.length) : magsPhased f cats k = delaysOf f cats := by
  subst hk
  simp only [magsPhased, delaysOf]
  have hmap0 : (cats.map (fun c => (c, (none : Option ℤ)))).map Prod.fst = cats := by
    simp only [List.map_map]
    exact List.map_id _
  have h1 : (assignPhase f .on_time onTimeMag cats.length
      (cats.map (fun c => (c, (none : Option ℤ))))).2
      = cats.length + countCat .on_time cats := by
    rw [assignPhase_snd, countP_fst_map, hmap0]
    rfl
  rw [h1]
  have hfst1 : ((assignPhase f .on_time onTimeMag cats.length
      (cats.map (fun c => (c, (none : Option ℤ))))).1).map Prod.fst = cats := by
    rw [assignPhase_fst]
    exact hmap0
  have h2 : (assignPhase f .small_delay smallMag (cats.length + countCat .on_time cats)
      ((assignPhase f .on_time onTimeMag cats.length
        (cats.map (fun c => (c, (none : Option ℤ))))).1)).2
      = cats.length + countCat .on_time cats + countCat .small_delay cats := by
    rw [assignPhase_snd, countP_fst_map, hfst1]
    rfl
  rw [h2]
  have hfst2 : ((assignPhase f .small_delay smallMag (cats.length + countCat .on_time cats)
      ((assignPhase f .on_time onTimeMag cats.length
        (cats.map (fun c => (c, (none : Option ℤ))))).1)).1).map Prod.fst = cats := by
    rw [assignPhase_fst]
    exact hfst1
  have h3 : (assignPhase f .big_delay bigMag
      (cats.length + countCat .on_time cats + countCat .small_delay cats)
      ((assignPhase f .small_delay smallMag (cats.length + countCat .on_time cats)
        ((assignPhase f .on_time onTimeMag cats.length
          (cats.map (fun c => (c, (none : Option ℤ))))).1)).1)).2
      = cats.length + countCat .on_time cats + countCat .small_delay cats
          + countCat .big_delay cats := by
    rw [assignPhase_snd, countP_fst_map, hfst2]
    rfl
  rw [h3]
  exact magsChain_eq_goDelays f cats cats.length
    (cats.length + countCat .on_time cats)
    (cats.length + countCat .on_time cats + countCat .small_delay cats)
    (cats.length + countCat .on_time cats + countCat .small_delay cats
      + countCat .big_delay cats)

/-- Claim C8 (amended): the synthesizer's draws are phased, not
interleaved per event — the implementation is equivalent, for every draw
stream and every input, to the reference synthesizer that consumes the
stream as: all category draws first (one per event, input order), then
magnitude draws batched per category in the order `on_time`,
`small_delay`, `big_delay`, `early` (input order within each batch), then
one reason draw per event in input order. -/
theorem draw_order_phased (f : ℕ → ℚ) (es : List Ev) :
    generate_core f es = synthPhased f es := by
  simp only [generate_core, synthPhased]
  rw [magsPhased_eq_delaysOf f (categoriesOf f 0 es.length) es.length
    (categoriesOf_length f 0 es.length).symm]

deriving instance DecidableEq for Except

/-- The concrete draw stream of the counterexample. -/
def streamCE : ℕ → ℚ := fun i => if i = 1 ∨ i = 3 then 12 else 0

/-- The concrete two-event input of the counterexample. -/
def esCE : List Ev :=
  [⟨"t1", "s1", "08:00:00", "10"⟩, ⟨"t2", "s2", "08:10:00", "10"⟩]

/-- Number of synthesized events with a zero delay (invariant under the
output sort, so it separates the two synthesizer outputs without
evaluating any string comparison). -/
def delayZeroCount : Except GenError (List DelayEvent) → ℕ
  | .ok l => l.countP (fun e => e.delay_min == 0)
  | .error _ => 0

/-- Counterexample to claim C8 as stated: on the stream `streamCE` and the
two-event input `esCE`, the implementation's output differs from the
reference synthesizer that interleaves category, magnitude and reason
draws per event: the implementation emits one zero-delay event (the first
event draws `on_time` and its magnitude from stream position 2), the
interleaved reference emits none (it feeds stream position 1, value 12,
into the first event's clipped normal magnitude, giving delay 3). -/
theorem draw_order_counterexample :
    generate_core streamCE esCE ≠ synthInterleaved streamCE esCE := by
  intro h
  have h1 : generate_core streamCE esCE = .ok (List.insertionSort evRel
      [⟨"2025-11-01", "t1", "s1", "10", "08:00:00", "08:00:00", 0, "on_time"⟩,
       ⟨"2025-11-01", "t2", "s2", "10", "08:10:00", "08:13:00", 3, "vehicle_late"⟩]) := by
    with_unfolding_all rfl
  have h2 : synthInterleaved streamCE esCE = .ok (List.insertionSort evRel
      [⟨"2025-11-01", "t1", "s1", "10", "08:00:00", "08:03:00", 3, "on_time"⟩,
       ⟨"2025-11-01", "t2", "s2", "10", "08:10:00", "08:11:00", 1, "vehicle_late"⟩]) := by
    with_unfolding_all rfl
  rw [h1, h2] at h
  have hinj : List.insertionSort evRel
      [⟨"2025-11-01", "t1", "s1", "10", "08:00:00", "08:00:00", 0, "on_time"⟩,
       ⟨"2025-11-01", "t2", "s2", "10", "08:10:00", "08:13:00", 3, "vehicle_late"⟩]
      = List.insertionSort evRel
      [⟨"2025-11-01", "t1", "s1", "10", "08:00:00", "08:03:00", 3, "on_time"⟩,
       ⟨"2025-11-01", "t2", "s2", "10", "08:10:00", "08:11:00", 1, "vehicle_late"⟩] := by
    injection h
  have hcnt := congrArg (List.countP (fun e => e.delay_min == 0)) hinj
  rw [(List.perm_insertionSort evRel _).countP_eq,
      (List.perm_insertionSort evRel _).countP_eq] at hcnt
  exact absurd hcnt (by decide)
